import Mathlib

/-!
Verification development for the iter8 experiment engine
(file src/base/experiment.go of the repository).

The Go code is shallowly embedded: Go float64 values are modelled as
exact rationals (no claim in scope depends on binary rounding),
Go maps are modelled as association lists observed only through lookup,
Go slices are Lean lists, and a Go nil pointer result is an Option.
Functions that can hit a Go runtime panic (out of range slice index or
nil map dereference) return an Except whose error value marks the panic.
-/

namespace Iter8

/-- Association list lookup, mirroring a read of a Go map: the first
binding for the key wins. -/
def lookupA {α : Type} (k : String) : List (String × α) → Option α
  | [] => none
  | (k2, v) :: rest => if k = k2 then some v else lookupA k rest

/-- Association list lookup returning the Go zero value for a missing
key, as a Go map read does for slices. -/
def lookupAD {α : Type} (k : String) (l : List (String × α)) (d : α) : α :=
  (lookupA k l).getD d

/-- Association list update, mirroring a Go map assignment. -/
def insertA {α : Type} (k : String) (v : α) : List (String × α) → List (String × α)
  | [] => [(k, v)]
  | (k2, v2) :: rest => if k = k2 then (k, v) :: rest else (k2, v2) :: insertA k v rest

/-- MetricType from the source: counter, gauge, sample, histogram. -/
inductive MetricType where
  | counter
  | gauge
  | sample
  | histogram
deriving DecidableEq, Repr

/-- HistBucket. Modelled from the spec: a histogram bucket carries lower
and upper bounds and a count (the concrete Go struct lives outside
src/). -/
structure HistBucket where
  lower : ℚ
  upper : ℚ
  count : ℕ
deriving DecidableEq, Repr

/-- MetricMeta from the source: description, optional units and type. -/
structure MetricMeta where
  description : String
  units : Option String
  type : MetricType
deriving DecidableEq, Repr

/-- The dynamic value passed to updateMetric: the Go code receives an
interface value that is a scalar float, a float vector, or a bucket
vector. -/
inductive MetricValue where
  | scalar (v : ℚ)
  | vector (vs : List ℚ)
  | hist (bs : List HistBucket)
deriving DecidableEq, Repr

/-- SLO from the source: a fully qualified metric name and a limit. -/
structure SLO where
  metric : String
  limit : ℚ
deriving DecidableEq, Repr

/-- SLOLimits from the source: upper and lower limits. -/
structure SLOLimits where
  upper : List SLO
  lower : List SLO
deriving DecidableEq, Repr

/-- SLOResults from the source: satisfaction matrices indexed by SLO
then version. -/
structure SLOResults where
  upper : List (List Bool)
  lower : List (List Bool)
deriving DecidableEq, Repr

/-- Insights from the source. -/
structure Insights where
  numVersions : ℕ
  metricsInfo : List (String × MetricMeta)
  nonHistMetricValues : List (List (String × List ℚ))
  histMetricValues : List (List (String × List HistBucket))
  slos : Option SLOLimits
  slosSatisfied : Option SLOResults
deriving DecidableEq, Repr

/-- ExperimentResult from the source (fields relevant to the claims). -/
structure ExperimentResult where
  numLoops : ℕ
  numCompletedTasks : ℕ
  failure : Bool
  insights : Option Insights
deriving DecidableEq, Repr

/-- Experiment from the source. The Go experiment also carries the task
list; the engine embedding passes the task list to the run loop
separately, so that tasks (which contain functions) do not have to live
inside the state they act on. -/
structure Experiment where
  result : Option ExperimentResult
deriving DecidableEq, Repr

/-! ## Characters and decimal numerals

strconv.ParseFloat and the %v formatting of float64 are Go library
routines (outside src/).  They are modelled over exact rationals on the
decimal fragment: an optional sign, an integer part and an optional
fractional part.  Go additionally accepts exponent, hexadecimal and
Inf/NaN forms and prints very large or very small magnitudes in
exponent form; no claim in scope exercises those forms, and Go shortest
round-trip formatting satisfies the same parse-of-format identity that
the proofs below rely on. -/

/-- Numeric value of a digit character (junk on non-digits). -/
def dVal (c : Char) : ℕ := c.toNat - 48

/-- Numeric value of a digit character, when it is one. -/
def digitVal (c : Char) : Option ℕ :=
  if c.isDigit then some (c.toNat - 48) else none

/-- The character for a digit below ten. -/
def digitChar : ℕ → Char
  | 0 => '0'
  | 1 => '1'
  | 2 => '2'
  | 3 => '3'
  | 4 => '4'
  | 5 => '5'
  | 6 => '6'
  | 7 => '7'
  | 8 => '8'
  | 9 => '9'
  | _ => '*'

/-- Value of a most-significant-first digit string. -/
def valN (l : List Char) : ℕ := l.foldl (fun a c => 10 * a + dVal c) 0

/-- Fold a digit string into a number, failing on a non-digit. -/
def digitsToNatAux (acc : ℕ) : List Char → Option ℕ
  | [] => some acc
  | c :: cs =>
    match digitVal c with
    | some d => digitsToNatAux (10 * acc + d) cs
    | none => none

/-- Parse a non-empty all-digit string. -/
def charsToNat (s : List Char) : Option ℕ :=
  if s.isEmpty then none else digitsToNatAux 0 s

/-- Little-endian decimal digits, with explicit fuel so that the
definition is structural and kernel-reducible. -/
def natDigitsRevAux : ℕ → ℕ → List ℕ
  | 0, _ => []
  | fuel + 1, n => if n = 0 then [] else n % 10 :: natDigitsRevAux fuel (n / 10)

/-- Little-endian decimal digits of a natural number. -/
def natDigitsRev (n : ℕ) : List ℕ := natDigitsRevAux n n

/-- Most-significant-first decimal digit characters of a natural
number, printing 0 as the single character 0. -/
def natToChars (n : ℕ) : List Char :=
  if n = 0 then ['0'] else ((natDigitsRev n).map digitChar).reverse

/-- Parse an unsigned decimal numeral: digits, optionally followed by a
point and more digits. -/
def parseUnsignedChars (s : List Char) : Option ℚ :=
  let ip := s.takeWhile Char.isDigit
  let rest := s.dropWhile Char.isDigit
  if ip.isEmpty then none
  else
    match rest with
    | [] =>
      match charsToNat ip with
      | some n => some ((n : ℕ) : ℚ)
      | none => none
    | c :: fp =>
      if c = '.' then
        if fp.isEmpty then none
        else if fp.all Char.isDigit then
          match charsToNat ip, charsToNat fp with
          | some a, some b => some (((a * 10 ^ fp.length + b : ℕ) : ℚ) / ((10 ^ fp.length : ℕ) : ℚ))
          | _, _ => none
        else none
      else none

/-- Parse a signed decimal numeral, modelling strconv.ParseFloat on the
decimal fragment. -/
def parseFloatChars (s : List Char) : Option ℚ :=
  match s with
  | [] => none
  | c :: rest =>
    if c = '-' then (parseUnsignedChars rest).map (fun q => -q)
    else if c = '+' then parseUnsignedChars rest
    else parseUnsignedChars s

/-- Multiplicity of a factor p in n, with fuel making the definition
structural. -/
def multFAux (p : ℕ) : ℕ → ℕ → ℕ
  | 0, _ => 0
  | fuel + 1, n => if 2 ≤ p ∧ n ≠ 0 ∧ n % p = 0 then multFAux p fuel (n / p) + 1 else 0

/-- Multiplicity of a factor p in n. -/
def multF (p n : ℕ) : ℕ := multFAux p n n

/-- Shortest-decimal formatting of a nonnegative rational whose
denominator divides a power of ten, modelling the %v formatting of a
nonnegative float64. -/
def formatUnsignedChars (q : ℚ) : List Char :=
  let k := max (multF 2 q.den) (multF 5 q.den)
  let n := q.num.toNat * (10 ^ k / q.den)
  if k = 0 then natToChars n
  else
    let ds := natToChars n
    let dsP := List.replicate (k + 1 - ds.length) '0' ++ ds
    dsP.take (dsP.length - k) ++ '.' :: dsP.drop (dsP.length - k)

/-- Shortest-decimal formatting of a rational, modelling the %v
formatting of a float64. -/
def formatFloatChars (q : ℚ) : List Char :=
  if q < 0 then '-' :: formatUnsignedChars (-q) else formatUnsignedChars q

/-! ## Metric name normalization (NormalizeMetricName in the source) -/

/-- Modelled from the spec: the built-in HTTP latency percentile metric
name prefix http/latency-p (the constant strings live outside src/). -/
def preHTTPL : List Char := ['h', 't', 't', 'p', '/', 'l', 'a', 't', 'e', 'n', 'c', 'y', '-', 'p']

/-- Modelled from the spec: the built-in gRPC latency percentile metric
name prefix grpc/latency/p (the constant strings live outside src/). -/
def preGRPCL : List Char := ['g', 'r', 'p', 'c', '/', 'l', 'a', 't', 'e', 'n', 'c', 'y', '/', 'p']

/-- NormalizeMetricName at the character-list level: a name carrying a
built-in percentile prefix has its trailing percent parsed as a float
and reformatted; other names pass through unchanged. -/
def normalizeL (m : List Char) : Except String (List Char) :=
  if preHTTPL.isPrefixOf m then
    match parseFloatChars (m.drop preHTTPL.length) with
    | some q => .ok (preHTTPL ++ formatFloatChars q)
    | none => .error "cannot extract percent from metric"
  else if preGRPCL.isPrefixOf m then
    match parseFloatChars (m.drop preGRPCL.length) with
    | some q => .ok (preGRPCL ++ formatFloatChars q)
    | none => .error "cannot extract percent from metric"
  else .ok m

/-- NormalizeMetricName from the source. -/
def NormalizeMetricName (m : String) : Except String String :=
  match normalizeL m.data with
  | .ok l => .ok (String.mk l)
  | .error e => .error e

/-- strings.Split on the slash separator. -/
def splitSlash : List Char → List (List Char)
  | [] => [[]]
  | c :: cs =>
    if c = '/' then [] :: splitSlash cs
    else
      match splitSlash cs with
      | [] => [[c]]
      | p :: ps => (c :: p) :: ps

/-! ## The stats library (montanaflynn/stats, outside src/)

Modelled from the spec: mean, stddev, min, max are the standard
definitions over the observation sequence, and pX is the X-th
percentile; each routine fails on an empty sequence, and a failure
surfaces as an absent value in the caller. -/

/-- Modelled from the spec: the arithmetic mean, absent on an empty
sequence. -/
def statsMean (vs : List ℚ) : Option ℚ :=
  if vs.isEmpty then none else some (vs.sum / (vs.length : ℚ))

/-- Modelled from the spec: the standard deviation, absent on an empty
sequence.  The Go routine returns the square root of the population
variance; a square root is irrational in general, so the model records
the population variance as the representative value.  No claim in
scope inspects the numeric value of this aggregator, only whether it is
absent. -/
def statsStdDev (vs : List ℚ) : Option ℚ :=
  if vs.isEmpty then none
  else some ((vs.map (fun v => (v - vs.sum / (vs.length : ℚ)) ^ 2)).sum / (vs.length : ℚ))

/-- Modelled from the spec: the minimum, absent on an empty sequence. -/
def statsMin (vs : List ℚ) : Option ℚ :=
  match vs with
  | [] => none
  | v :: rest => some (rest.foldl min v)

/-- Modelled from the spec: the maximum, absent on an empty sequence. -/
def statsMax (vs : List ℚ) : Option ℚ :=
  match vs with
  | [] => none
  | v :: rest => some (rest.foldl max v)

/-- Insert into a sorted list, ascending. -/
def insertSorted (x : ℚ) : List ℚ → List ℚ
  | [] => [x]
  | y :: rest => if x ≤ y then x :: y :: rest else y :: insertSorted x rest

/-- Insertion sort, ascending. -/
def sortQ : List ℚ → List ℚ
  | [] => []
  | x :: rest => insertSorted x (sortQ rest)

/-- Modelled from the spec: the X-th percentile of a sequence, absent
on an empty sequence or an out-of-range percent, following the rank
interpolation of the Go stats library. -/
def statsPercentile (vs : List ℚ) (percent : ℚ) : Option ℚ :=
  match vs with
  | [] => none
  | [v] => some v
  | _ =>
    if percent ≤ 0 ∨ 100 < percent then none
    else
      let c := sortQ vs
      let idx : ℚ := percent / 100 * (c.length : ℚ)
      if idx.den = 1 then
        let i := idx.num.toNat
        some (c.getD (i - 1) 0)
      else if 1 < idx then
        let i := idx.num.toNat / idx.den
        some ((c.getD (i - 1) 0 + c.getD i 0) / 2)
      else none

/-! ## Sample aggregation and scalar metric resolution -/

/-- Modelled from the spec: the aggregator tokens over a sample vector
are mean, stddev, min, max, count, and pX (the constant strings live
outside src/). -/
def meanAggToken : String := "mean"

/-- Modelled from the spec: the stddev aggregator token. -/
def stddevAggToken : String := "stddev"

/-- Modelled from the spec: the min aggregator token. -/
def minAggToken : String := "min"

/-- Modelled from the spec: the max aggregator token. -/
def maxAggToken : String := "max"

/-- Modelled from the spec: the decimal pattern for the percent part of
a percentile aggregator (the regular expression constant lives outside
src/): a decimal numeral accepted by the float parser. -/
def decimalMatchL (b : List Char) : Bool :=
  (parseUnsignedChars b).isSome

/-- Slice indexing with the Go panic on an out-of-range index. -/
def exGet {α : Type} (l : List α) (i : ℕ) : Except Unit α :=
  match l.get? i with
  | some x => .ok x
  | none => .error ()

/-- getSampleAggregation from the source: aggregates the base sample
metric for a version with the given aggregator token.  The value is
absent on an aggregation failure; an out-of-range version index panics,
because the slice index on the version is not bounds-checked here.
Note the max token is routed through the mean routine, and no case
handles the count token, exactly as in the source switch. -/
def getSampleAggregation (ins : Insights) (i : ℕ) (baseMetric a : String) : Except Unit (Option ℚ) :=
  match exGet ins.nonHistMetricValues i with
  | .error _ => .error ()
  | .ok row =>
    let vals := lookupAD baseMetric row []
    if vals.length = 1 then .ok (some (vals.headD 0))
    else if a = meanAggToken then .ok (statsMean vals)
    else if a = stddevAggToken then .ok (statsStdDev vals)
    else if a = minAggToken then .ok (statsMin vals)
    else if a = maxAggToken then .ok (statsMean vals)
    else
      match a.data with
      | c :: b =>
        if c = 'p' then
          if decimalMatchL b then
            match parseFloatChars b with
            | some percent => .ok (statsPercentile vals percent)
            | none => .ok none
          else .ok none
        else .ok none
      | [] => .ok none

/-- aggregateMetric from the source: resolve the two leading segments
of the name to a registered sample metric and delegate to the sample
aggregation with the third segment. -/
def aggregateMetric (ins : Insights) (i : ℕ) (m : String) : Except Unit (Option ℚ) :=
  let s := splitSlash m.data
  match exGet s 0 with
  | .error _ => .error ()
  | .ok s0 =>
    match exGet s 1 with
    | .error _ => .error ()
    | .ok s1 =>
      let baseMetric := String.mk (s0 ++ '/' :: s1)
      match lookupA baseMetric ins.metricsInfo with
      | some mm =>
        if mm.type = .sample then
          match exGet s 2 with
          | .error _ => .error ()
          | .ok s2 => getSampleAggregation ins i baseMetric (String.mk s2)
        else .ok none
      | none => .ok none

/-- getCounterOrGaugeMetricFromValuesMap from the source: the last
appended observation for a registered counter or gauge metric, with the
version index bounds-checked. -/
def getCounterOrGaugeMetricFromValuesMap (ins : Insights) (i : ℕ) (m : String) : Option ℚ :=
  match lookupA m ins.metricsInfo with
  | some mm =>
    if mm.type ≠ .counter ∧ mm.type ≠ .gauge then none
    else if ins.nonHistMetricValues.length ≤ i then none
    else
      match lookupA m (ins.nonHistMetricValues.getD i []) with
      | some vals => if 0 < vals.length then vals.getLast? else none
      | none => none
  | none => none

/-- ScalarMetricValue from the source: a three-segment name is
aggregated, a two-segment name is normalized and resolved as a counter
or gauge, anything else is absent. -/
def ScalarMetricValue (ins : Insights) (i : ℕ) (m : String) : Except Unit (Option ℚ) :=
  match splitSlash m.data with
  | [_, _, _] => aggregateMetric ins i m
  | [_, _] =>
    match NormalizeMetricName m with
    | .error _ => .ok none
    | .ok nm => .ok (getCounterOrGaugeMetricFromValuesMap ins i nm)
  | _ => .ok none

/-! ## Metric registration and update -/

/-- metricTypeMatch from the source. -/
def metricTypeMatch (t : MetricType) (val : MetricValue) : Bool :=
  match val with
  | .scalar _ => t = .counter ∨ t = .gauge
  | .vector _ => t = .sample
  | .hist _ => t = .histogram

/-- registerMetric from the source: record the meta, failing when a
structurally different meta is already registered for the name. -/
def registerMetric (ins : Insights) (m : String) (mm : MetricMeta) : Except String Insights :=
  match lookupA m ins.metricsInfo with
  | some old =>
    if old = mm then .ok { ins with metricsInfo := insertA m mm ins.metricsInfo }
    else .error "old and new metric meta differ"
  | none => .ok { ins with metricsInfo := insertA m mm ins.metricsInfo }

/-- Error outcome of updateMetric: an ordinary Go error or a runtime
panic from an unchecked slice index. -/
inductive UpdErr where
  | emsg (s : String)
  | crash
deriving DecidableEq, Repr

/-- updateMetric from the source: check the value shape against the
meta type, bounds-check the version against numVersions, normalize the
name, register the meta, and append the value into the per-version
store.  The Go code dispatches the append on the meta type after the
shape check has passed; dispatching on the value shape is equivalent at
that point. -/
def updateMetric (ins : Insights) (m : String) (mm : MetricMeta) (i : ℕ) (val : MetricValue) : Except UpdErr Insights :=
  if metricTypeMatch mm.type val = false then .error (.emsg "metric value and type are incompatible")
  else if ins.numVersions ≤ i then .error (.emsg "insufficient number of versions")
  else
    match NormalizeMetricName m with
    | .error e => .error (.emsg e)
    | .ok nm =>
      match registerMetric ins nm mm with
      | .error e => .error (.emsg e)
      | .ok ins1 =>
        match val with
        | .scalar v =>
          match ins1.nonHistMetricValues.get? i with
          | none => .error .crash
          | some row =>
            .ok { ins1 with nonHistMetricValues :=
              ins1.nonHistMetricValues.set i (insertA nm (lookupAD nm row [] ++ [v]) row) }
        | .vector vs =>
          match ins1.nonHistMetricValues.get? i with
          | none => .error .crash
          | some row =>
            .ok { ins1 with nonHistMetricValues :=
              ins1.nonHistMetricValues.set i (insertA nm (lookupAD nm row [] ++ vs) row) }
        | .hist bs =>
          match ins1.histMetricValues.get? i with
          | none => .error .crash
          | some row =>
            .ok { ins1 with histMetricValues :=
              ins1.histMetricValues.set i (insertA nm (lookupAD nm row [] ++ bs) row) }

/-- setSLOs from the source: set once; a second call must carry a
structurally equal value, otherwise it is a conflict error. -/
def setSLOs (ins : Insights) (slos : Option SLOLimits) : Except String Insights :=
  match ins.slos with
  | some old =>
    if some old = slos then .ok ins
    else .error "old and new value of slos conflict"
  | none => .ok { ins with slos := slos }

/-! ## SLO evaluation -/

/-- One version check inside getSLOsSatisfiedBy: conjunction of the
cells of the given matrix at the listed SLO indices for version j, with
the early break of the source loop, panicking when a dereferenced cell
is missing. -/
def allCellsUpTo (sat : Option SLOResults) (proj : SLOResults → List (List Bool)) (j : ℕ) : List ℕ → Except Unit Bool
  | [] => .ok true
  | i :: rest =>
    match sat with
    | none => .error ()
    | some s =>
      match exGet (proj s) i with
      | .error _ => .error ()
      | .ok row =>
        match exGet row j with
        | .error _ => .error ()
        | .ok c => if c then allCellsUpTo sat proj j rest else .ok false

/-- The version filter of getSLOsSatisfiedBy: keep the versions whose
upper cells all hold and, only then, whose lower cells all hold (the
source short-circuits the lower loop when the upper loop already
failed). -/
def satVersions (ins : Insights) (limits : SLOLimits) : List ℕ → Except Unit (List ℕ)
  | [] => .ok []
  | j :: rest =>
    match allCellsUpTo ins.slosSatisfied SLOResults.upper j (List.range limits.upper.length) with
    | .error _ => .error ()
    | .ok satUp =>
      match (if satUp then allCellsUpTo ins.slosSatisfied SLOResults.lower j (List.range limits.lower.length) else .ok false) with
      | .error _ => .error ()
      | .ok satThis =>
        match satVersions ins limits rest with
        | .error _ => .error ()
        | .ok sat => .ok (if satThis then j :: sat else sat)

/-- getSLOsSatisfiedBy from the source: nil experiment, result or
insights, and zero versions, give the empty set; absent SLO limits make
every version satisfying; otherwise the versions whose satisfaction
cells all hold. -/
def getSLOsSatisfiedBy (exp : Option Experiment) : Except Unit (List ℕ) :=
  match exp with
  | none => .ok []
  | some e =>
    match e.result with
    | none => .ok []
    | some r =>
      match r.insights with
      | none => .ok []
      | some ins =>
        if ins.numVersions = 0 then .ok []
        else
          match ins.slos with
          | none => .ok (List.range ins.numVersions)
          | some limits => satVersions ins limits (List.range ins.numVersions)

/-- The SLOs predicate method from the source: false when the
experiment, result or insights is nil, otherwise whether every version
is in the satisfied set. -/
def slosPredicate (exp : Option Experiment) : Except Unit Bool :=
  match exp with
  | none => .ok false
  | some e =>
    match e.result with
    | none => .ok false
    | some r =>
      match r.insights with
      | none => .ok false
      | some ins =>
        match getSLOsSatisfiedBy exp with
        | .error _ => .error ()
        | .ok sby => .ok (decide (ins.numVersions = sby.length))

/-! ## The engine run loop -/

/-- Modelled from the spec: a conditional-task predicate is a boolean
expression over the experiment whose compilation or evaluation may
fail; the expression language itself (the expr library) lives outside
src/.  The slosP form invokes the SLOs method of the experiment. -/
inductive Pred where
  | constB (b : Bool)
  | slosP
  | notP (p : Pred)
  | failP
deriving Repr

/-- Evaluate a predicate against the experiment; failP models a
compile or run failure of the expression. -/
def evalPred : Pred → Experiment → Except String Bool
  | .constB b, _ => .ok b
  | .slosP, e =>
    match slosPredicate (some e) with
    | .ok b => .ok b
    | .error _ => .error "panic in predicate"
  | .notP p, e =>
    match evalPred p e with
    | .ok b => .ok (!b)
    | .error e2 => .error e2
  | .failP, _ => .error "unable to compile if clause"

/-- A task as the engine sees it: a name, an optional if predicate and
a run method that transforms the experiment or fails. -/
structure TaskM where
  name : String
  ifPred : Option Pred
  runFn : Experiment → Except String Experiment

/-- failExperiment from the source. -/
def failExperiment (e : Experiment) : Experiment :=
  { e with result := e.result.map (fun r => { r with failure := true }) }

/-- incrementNumCompletedTasks from the source. -/
def incrementNumCompletedTasks (e : Experiment) : Experiment :=
  { e with result := e.result.map (fun r => { r with numCompletedTasks := r.numCompletedTasks + 1 }) }

/-- incrementNumLoops from the source. -/
def incrementNumLoops (e : Experiment) : Experiment :=
  { e with result := e.result.map (fun r => { r with numLoops := r.numLoops + 1 }) }

/-- The task loop of the run method from the source, with the driver
modelled as an in-memory write log that always succeeds: evaluate the
if predicate when present (a failure aborts), run or skip the task, on
a task failure latch the failure flag and persist, and after a run or a
skip increment the completed count and persist. -/
def runTasks (tasks : List TaskM) (exp : Experiment) (writes : List Experiment) : Except String Experiment × List Experiment :=
  match tasks with
  | [] => (.ok exp, writes)
  | t :: rest =>
    match (match t.ifPred with
           | none => Except.ok true
           | some p => evalPred p exp) with
    | .error e => (.error e, writes)
    | .ok shouldRun =>
      if shouldRun then
        match t.runFn exp with
        | .error e =>
          let exp1 := failExperiment exp
          (.error e, writes ++ [exp1])
        | .ok exp2 =>
          let exp3 := incrementNumCompletedTasks exp2
          runTasks rest exp3 (writes ++ [exp3])
      else
        let exp3 := incrementNumCompletedTasks exp
        runTasks rest exp3 (writes ++ [exp3])

/-- The run method from the source: reject a nil result, increment the
loop counter, persist, and enter the task loop. -/
def runExperimentLoop (tasks : List TaskM) (exp : Experiment) : Except String Experiment × List Experiment :=
  match exp.result with
  | none => (.error "experiment with nil result section cannot be run", [])
  | some _ =>
    let exp1 := incrementNumLoops exp
    runTasks tasks exp1 [exp1]

/-! ## Concrete experiment states used to evaluate the code -/

/-- A one-version insights store holding the sample metric a/b with the
two observations 1 and 3. -/
def insTwoObs : Insights :=
  { numVersions := 1
    metricsInfo := [("a/b", { description := "d", units := none, type := .sample })]
    nonHistMetricValues := [[("a/b", [1, 3])]]
    histMetricValues := [[]]
    slos := none
    slosSatisfied := none }

/-- An experiment whose insights exist but report zero versions. -/
def expZeroVersions : Experiment :=
  { result := some
      { numLoops := 0
        numCompletedTasks := 0
        failure := false
        insights := some
          { numVersions := 0
            metricsInfo := []
            nonHistMetricValues := []
            histMetricValues := []
            slos := none
            slosSatisfied := none } } }

/-- Claim C1, evaluation of the code at the failing input: on an
experiment whose insights exist with numVersions equal to zero, the
SLOs method returns true, because getSLOsSatisfiedBy returns the empty
set and zero versions equals an empty satisfied set; the claim (and the
spec contract) says such an experiment must yield false. -/
theorem slos_zero_versions_returns_true :
    slosPredicate (some expZeroVersions) = .ok true := by
  simp [slosPredicate, expZeroVersions, getSLOsSatisfiedBy]

/-- Claim C2, evaluation of the code at the failing input: for the
sample metric a/b of version 0 with observations 1 and 3, the
aggregator token max returns 2, the mean, because the max switch case
of getSampleAggregation calls the mean routine; the claim says it must
return the maximum 3. -/
theorem max_aggregator_returns_mean_on_failing_input :
    getSampleAggregation insTwoObs 0 "a/b" "max" = .ok (some 2) := by
  simp [getSampleAggregation, insTwoObs, exGet, lookupAD, lookupA, statsMean, meanAggToken,
    stddevAggToken, minAggToken, maxAggToken]
  norm_num

/-- Claim C3, evaluation of the code at the failing input: for the
sample metric a/b of version 0 with the two observations 1 and 3, the
aggregator token count returns an absent value, because no switch case
of getSampleAggregation handles count and the token does not carry the
percentile prefix; the claim says it must return the observation count
2 as a float. -/
theorem count_aggregator_returns_absent_on_failing_input :
    getSampleAggregation insTwoObs 0 "a/b" "count" = .ok none := by
  simp [getSampleAggregation, insTwoObs, exGet, lookupAD, lookupA, meanAggToken,
    stddevAggToken, minAggToken, maxAggToken]

/-- Claim C10, counterexample: resolving the aggregated name a/b/mean
of the registered sample metric a/b at the out-of-range version index 5
hits the unchecked slice index of getSampleAggregation and panics, so
ScalarMetricValue is not total in the version index as claimed. -/
theorem scalarMetricValue_panics_out_of_range :
    ScalarMetricValue insTwoObs 5 "a/b/mean" = .error () := by
  simp [ScalarMetricValue, insTwoObs, splitSlash, aggregateMetric, exGet, lookupA,
    getSampleAggregation]

/-- Helper for the amended claim C10: the sample aggregation returns
without failing whenever the version index is within the per-version
value store. -/
theorem getSampleAggregation_ok (ins : Insights) (i : ℕ) (b a : String)
    (h : i < ins.nonHistMetricValues.length) :
    ∃ r, getSampleAggregation ins i b a = .ok r := by
  have hg : ins.nonHistMetricValues.get? i = some (ins.nonHistMetricValues.get ⟨i, h⟩) :=
    List.get?_eq_get h
  simp only [getSampleAggregation, exGet, hg]
  repeat' split
  all_goals exact ⟨_, rfl⟩

/-- Claim C10 as amended: for every metric name and every version index
that is within nonHistMetricValues, ScalarMetricValue returns a value
or absent without failing; totality for indices beyond the store holds
only on the bounds-checked two-segment path, not on the aggregated
path. -/
theorem scalarMetricValue_total (ins : Insights) (i : ℕ) (m : String)
    (h : i < ins.nonHistMetricValues.length) :
    ∃ r, ScalarMetricValue ins i m = .ok r := by
  unfold ScalarMetricValue
  split
  case _ x y z heq =>
    unfold aggregateMetric
    rw [heq]
    simp only [exGet, List.get?]
    split
    case _ mm hmm =>
      split
      · exact getSampleAggregation_ok ins i _ _ h
      · exact ⟨none, rfl⟩
    case _ => exact ⟨none, rfl⟩
  case _ x y heq =>
    split
    · exact ⟨none, rfl⟩
    · exact ⟨_, rfl⟩
  case _ => exact ⟨none, rfl⟩

/-- Witness for the amended claim C10 at a concrete in-range input. -/
theorem scalarMetricValue_total_witness :
    0 < insTwoObs.nonHistMetricValues.length ∧
      ∃ r, ScalarMetricValue insTwoObs 0 "a/b/mean" = .ok r :=
  ⟨by simp [insTwoObs], scalarMetricValue_total insTwoObs 0 "a/b/mean" (by simp [insTwoObs])⟩

/-- A one-version insights store holding the sample metric a/b with the
single observation 7. -/
def insOneObs : Insights :=
  { numVersions := 1
    metricsInfo := [("a/b", { description := "d", units := none, type := .sample })]
    nonHistMetricValues := [[("a/b", [7])]]
    histMetricValues := [[]]
    slos := none
    slosSatisfied := none }

/-- Claim C6: for every aggregator token and every version index within
the store, an empty observation sequence for the base sample metric
makes the aggregation result absent, and a single-observation sequence
makes the result that observation itself (the source returns it before
inspecting the token). -/
theorem getSampleAggregation_edge (ins : Insights) (i : ℕ) (b a : String)
    (h : i < ins.nonHistMetricValues.length) :
    (lookupAD b (ins.nonHistMetricValues.getD i []) [] = [] →
      getSampleAggregation ins i b a = .ok none)
    ∧ (∀ x : ℚ, lookupAD b (ins.nonHistMetricValues.getD i []) [] = [x] →
      getSampleAggregation ins i b a = .ok (some x)) := by
  have hg : ins.nonHistMetricValues.get? i = some (ins.nonHistMetricValues.get ⟨i, h⟩) :=
    List.get?_eq_get h
  have hgd : ins.nonHistMetricValues.getD i [] = ins.nonHistMetricValues.get ⟨i, h⟩ := by
    simp [List.getD, List.getElem?_eq_getElem h, List.get_eq_getElem]
  constructor
  · intro hvals
    rw [hgd] at hvals
    simp only [getSampleAggregation, exGet, hg, hvals]
    repeat' split
    all_goals simp_all [statsMean, statsStdDev, statsMin, statsMax, statsPercentile]
  · intro x hvals
    rw [hgd] at hvals
    simp only [getSampleAggregation, exGet, hg, hvals]
    simp

/-- Witness for claim C6: on the concrete one-observation store, the
metric a/b aggregates to its single observation 7 under the token mean
and the unknown metric x/y, whose sequence is empty, aggregates to
absent. -/
theorem getSampleAggregation_edge_witness :
    0 < insOneObs.nonHistMetricValues.length ∧
      getSampleAggregation insOneObs 0 "a/b" "mean" = .ok (some 7) ∧
      getSampleAggregation insOneObs 0 "x/y" "mean" = .ok none :=
  ⟨by simp [insOneObs],
    (getSampleAggregation_edge insOneObs 0 "a/b" "mean" (by simp [insOneObs])).2 7
      (by simp [insOneObs, lookupAD, lookupA]),
    (getSampleAggregation_edge insOneObs 0 "x/y" "mean" (by simp [insOneObs])).1
      (by simp [insOneObs, lookupAD, lookupA])⟩

/-- Claim C7: setSLOs is idempotent; with SLOs already set, a
structurally equal argument succeeds and leaves the store unchanged, a
different argument is a conflict error (and, the embedding being
functional, the store is unchanged on error); with SLOs unset the
argument is stored. -/
theorem setSLOs_spec (ins : Insights) (arg : Option SLOLimits) :
    (∀ s, ins.slos = some s →
      ((arg = some s → setSLOs ins arg = .ok ins) ∧
       (arg ≠ some s → ∃ e, setSLOs ins arg = .error e)))
    ∧ (ins.slos = none → setSLOs ins arg = .ok { ins with slos := arg }) := by
  constructor
  · intro s hs
    constructor
    · intro ha
      simp [setSLOs, hs, ha]
    · intro ha
      refine ⟨"old and new value of slos conflict", ?_⟩
      simp only [setSLOs, hs]
      rw [if_neg (fun hc => ha hc.symm)]
  · intro hs
    simp [setSLOs, hs]

/-- A one-SLO limit set used by the setSLOs witness. -/
def limitsA : SLOLimits :=
  { upper := [{ metric := "a/b", limit := 1 }], lower := [] }

/-- The one-observation insights store with limitsA installed. -/
def insWithSLO : Insights :=
  { insOneObs with slos := some limitsA }

/-- Witness for claim C7 at concrete inputs: re-setting the installed
limits succeeds unchanged, setting a different value errors, and
setting on an unset store stores the argument. -/
theorem setSLOs_spec_witness :
    setSLOs insWithSLO (some limitsA) = .ok insWithSLO ∧
      (∃ e, setSLOs insWithSLO none = .error e) ∧
      setSLOs insOneObs (some limitsA) = .ok { insOneObs with slos := some limitsA } :=
  ⟨((setSLOs_spec insWithSLO (some limitsA)).1 limitsA rfl).1 rfl,
    ((setSLOs_spec insWithSLO none).1 limitsA rfl).2 (by simp),
    (setSLOs_spec insOneObs (some limitsA)).2 rfl⟩

/-- Claim C8: a task whose if predicate evaluates to false is skipped
by the run loop, yet the completed count is incremented and the updated
experiment is persisted via the driver write log, exactly as for a task
that ran successfully: the loop continuation is the same as for the
remaining tasks after the increment and the persist, independent of the
run method of the skipped task, and equals the loop on a task with no
predicate whose run method succeeds without changing the experiment. -/
theorem skipped_task_counts_and_persists (t : TaskM) (rest : List TaskM) (exp : Experiment)
    (w : List Experiment) (p : Pred)
    (hp : t.ifPred = some p) (hf : evalPred p exp = .ok false) :
    runTasks (t :: rest) exp w =
      runTasks rest (incrementNumCompletedTasks exp) (w ++ [incrementNumCompletedTasks exp])
    ∧ runTasks (t :: rest) exp w =
      runTasks ({ name := t.name, ifPred := none, runFn := Except.ok } :: rest) exp w := by
  constructor
  · simp [runTasks, hp, hf]
  · simp [runTasks, hp, hf]

/-- A task whose predicate is constantly false and whose run method
would fail if it were ever invoked. -/
def tBoom : TaskM :=
  { name := "boom", ifPred := some (.constB false), runFn := fun _ => .error "boom" }

/-- An experiment one loop in with no completed tasks. -/
def expOne : Experiment :=
  { result := some { numLoops := 1, numCompletedTasks := 0, failure := false, insights := none } }

/-- Witness for claim C8 at a concrete skipped task whose run method
fails if invoked: the loop still increments and persists and agrees
with a successfully running no-op task. -/
theorem skipped_task_witness :
    tBoom.ifPred = some (.constB false) ∧
      evalPred (.constB false) expOne = .ok false ∧
      (runTasks [tBoom] expOne [] =
        runTasks [] (incrementNumCompletedTasks expOne) ([] ++ [incrementNumCompletedTasks expOne])
      ∧ runTasks [tBoom] expOne [] =
        runTasks [{ name := tBoom.name, ifPred := none, runFn := Except.ok }] expOne []) :=
  ⟨rfl, rfl, skipped_task_counts_and_persists tBoom [] expOne [] (.constB false) rfl rfl⟩

/-! ## Registration and update: claims C4 and C5 -/

/-- Looking up a key just inserted finds the inserted value. -/
theorem lookupA_insertA_self {α : Type} (k : String) (v : α) (l : List (String × α)) :
    lookupA k (insertA k v l) = some v := by
  induction l with
  | nil => simp [insertA, lookupA]
  | cons hd tl ih =>
    obtain ⟨k2, v2⟩ := hd
    by_cases hk : k = k2
    · simp [insertA, lookupA, hk]
    · simp [insertA, lookupA, hk, ih]

/-- The appended-value postcondition of updateMetric: the observation
sequence of the canonical name for version i has grown by exactly the
supplied value, in the store matching the value shape. -/
def appendedVal (ins ins2 : Insights) (nm : String) (i : ℕ) : MetricValue → Prop
  | .scalar v => lookupAD nm (ins2.nonHistMetricValues.getD i []) [] =
      lookupAD nm (ins.nonHistMetricValues.getD i []) [] ++ [v]
  | .vector vs => lookupAD nm (ins2.nonHistMetricValues.getD i []) [] =
      lookupAD nm (ins.nonHistMetricValues.getD i []) [] ++ vs
  | .hist bs => lookupAD nm (ins2.histMetricValues.getD i []) [] =
      lookupAD nm (ins.histMetricValues.getD i []) [] ++ bs

/-- Reading back the element just set. -/
theorem getD_set_self {α : Type} (l : List α) (i : ℕ) (a d : α) (h : i < l.length) :
    (l.set i a).getD i d = a := by
  simp [List.getD, List.getElem?_set_self', h]

/-- getD agrees with get inside the bounds. -/
theorem getD_get {α : Type} (l : List α) (i : ℕ) (d : α) (h : i < l.length) :
    l.getD i d = l.get ⟨i, h⟩ := by
  simp [List.getD, List.getElem?_eq_getElem h, List.get_eq_getElem]

/-- The success path of updateMetric: when every gate passes, the
update returns a store with the meta registered under the canonical
name, the value appended for the version, and the per-version store
lengths unchanged. -/
theorem updateMetric_ok_case (ins : Insights) (m : String) (mm : MetricMeta) (i : ℕ)
    (val : MetricValue) (nm : String)
    (hT : ¬ metricTypeMatch mm.type val = false)
    (hI : ¬ ins.numVersions ≤ i)
    (hN : NormalizeMetricName m = .ok nm)
    (hR : registerMetric ins nm mm = .ok { ins with metricsInfo := insertA nm mm ins.metricsInfo })
    (h1 : ins.nonHistMetricValues.length = ins.numVersions)
    (h2 : ins.histMetricValues.length = ins.numVersions) :
    ∃ ins2, updateMetric ins m mm i val = .ok ins2 ∧
      lookupA nm ins2.metricsInfo = some mm ∧ appendedVal ins ins2 nm i val ∧
      ins2.nonHistMetricValues.length = ins.nonHistMetricValues.length ∧
      ins2.histMetricValues.length = ins.histMetricValues.length := by
  have hlt1 : i < ins.nonHistMetricValues.length := by omega
  have hlt2 : i < ins.histMetricValues.length := by omega
  match val with
  | .scalar v =>
    have hg : ins.nonHistMetricValues.get? i = some (ins.nonHistMetricValues.get ⟨i, hlt1⟩) :=
      List.get?_eq_get hlt1
    refine ⟨{ ins with
        metricsInfo := insertA nm mm ins.metricsInfo
        nonHistMetricValues := ins.nonHistMetricValues.set i
          (insertA nm (lookupAD nm (ins.nonHistMetricValues.get ⟨i, hlt1⟩) [] ++ [v])
            (ins.nonHistMetricValues.get ⟨i, hlt1⟩)) }, ?_, ?_, ?_, ?_, ?_⟩
    · simp only [updateMetric, hT, if_false, hI, hN, hR, hg]
      simp
    · exact lookupA_insertA_self nm mm ins.metricsInfo
    · show lookupAD nm (List.getD (List.set _ i _) i []) [] = _
      rw [getD_set_self _ _ _ _ hlt1]
      unfold lookupAD
      rw [lookupA_insertA_self]
      rw [getD_get _ _ _ hlt1]
      rfl
    · simp
    · rfl
  | .vector vs =>
    have hg : ins.nonHistMetricValues.get? i = some (ins.nonHistMetricValues.get ⟨i, hlt1⟩) :=
      List.get?_eq_get hlt1
    refine ⟨{ ins with
        metricsInfo := insertA nm mm ins.metricsInfo
        nonHistMetricValues := ins.nonHistMetricValues.set i
          (insertA nm (lookupAD nm (ins.nonHistMetricValues.get ⟨i, hlt1⟩) [] ++ vs)
            (ins.nonHistMetricValues.get ⟨i, hlt1⟩)) }, ?_, ?_, ?_, ?_, ?_⟩
    · simp only [updateMetric, hT, if_false, hI, hN, hR, hg]
      simp
    · exact lookupA_insertA_self nm mm ins.metricsInfo
    · show lookupAD nm (List.getD (List.set _ i _) i []) [] = _
      rw [getD_set_self _ _ _ _ hlt1]
      unfold lookupAD
      rw [lookupA_insertA_self]
      rw [getD_get _ _ _ hlt1]
      rfl
    · simp
    · rfl
  | .hist bs =>
    have hg : ins.histMetricValues.get? i = some (ins.histMetricValues.get ⟨i, hlt2⟩) :=
      List.get?_eq_get hlt2
    refine ⟨{ ins with
        metricsInfo := insertA nm mm ins.metricsInfo
        histMetricValues := ins.histMetricValues.set i
          (insertA nm (lookupAD nm (ins.histMetricValues.get ⟨i, hlt2⟩) [] ++ bs)
            (ins.histMetricValues.get ⟨i, hlt2⟩)) }, ?_, ?_, ?_, ?_, ?_⟩
    · simp only [updateMetric, hT, if_false, hI, hN, hR, hg]
      simp
    · exact lookupA_insertA_self nm mm ins.metricsInfo
    · show lookupAD nm (List.getD (List.set _ i _) i []) [] = _
      rw [getD_set_self _ _ _ _ hlt2]
      unfold lookupAD
      rw [lookupA_insertA_self]
      rw [getD_get _ _ _ hlt2]
      rfl
    · rfl
    · simp

/-- Claim C4: on a well-formed store, updateMetric returns an error
exactly when the value shape mismatches the meta type, the version
index is beyond numVersions, the percentile suffix of the name is
unparseable, or the canonical name is registered with a structurally
different meta; otherwise it registers the meta, appends the value and
returns no error. -/
theorem updateMetric_spec (ins : Insights) (m : String) (mm : MetricMeta) (i : ℕ) (val : MetricValue)
    (h1 : ins.nonHistMetricValues.length = ins.numVersions)
    (h2 : ins.histMetricValues.length = ins.numVersions) :
    ((∃ e, updateMetric ins m mm i val = .error (.emsg e)) ↔
      (metricTypeMatch mm.type val = false ∨ ins.numVersions ≤ i ∨
        (∃ e, NormalizeMetricName m = .error e) ∨
        (∃ nm old, NormalizeMetricName m = .ok nm ∧ lookupA nm ins.metricsInfo = some old ∧ old ≠ mm)))
    ∧ (¬ (metricTypeMatch mm.type val = false ∨ ins.numVersions ≤ i ∨
        (∃ e, NormalizeMetricName m = .error e) ∨
        (∃ nm old, NormalizeMetricName m = .ok nm ∧ lookupA nm ins.metricsInfo = some old ∧ old ≠ mm)) →
      ∃ ins2 nm, updateMetric ins m mm i val = .ok ins2 ∧ NormalizeMetricName m = .ok nm ∧
        lookupA nm ins2.metricsInfo = some mm ∧ appendedVal ins ins2 nm i val) := by
  by_cases hT : metricTypeMatch mm.type val = false
  · constructor
    · exact ⟨fun _ => Or.inl hT,
        fun _ => ⟨"metric value and type are incompatible", by simp [updateMetric, hT]⟩⟩
    · intro hn; exact absurd (Or.inl hT) hn
  · by_cases hI : ins.numVersions ≤ i
    · constructor
      · exact ⟨fun _ => Or.inr (Or.inl hI),
          fun _ => ⟨"insufficient number of versions", by simp [updateMetric, hT, hI]⟩⟩
      · intro hn; exact absurd (Or.inr (Or.inl hI)) hn
    · match hN : NormalizeMetricName m with
      | .error e =>
        constructor
        · exact ⟨fun _ => Or.inr (Or.inr (Or.inl ⟨e, rfl⟩)),
            fun _ => ⟨e, by simp [updateMetric, hT, hI, hN]⟩⟩
        · intro hn; exact absurd (Or.inr (Or.inr (Or.inl ⟨e, rfl⟩))) hn
      | .ok nm =>
        match hL : lookupA nm ins.metricsInfo with
        | some old =>
          by_cases hO : old = mm
          · have hR : registerMetric ins nm mm =
                .ok { ins with metricsInfo := insertA nm mm ins.metricsInfo } := by
              simp [registerMetric, hL, hO]
            obtain ⟨ins2, hok, hlook, happ, _, _⟩ :=
              updateMetric_ok_case ins m mm i val nm hT hI hN hR h1 h2
            constructor
            · constructor
              · rintro ⟨e, he⟩
                rw [hok] at he
                exact Except.noConfusion he
              · rintro (h | h | ⟨e, he⟩ | ⟨nm2, old2, hN2, hL2, hO2⟩)
                · exact absurd h hT
                · exact absurd h hI
                · exact Except.noConfusion he
                · cases hN2
                  rw [hL] at hL2
                  injection hL2 with h3
                  exact absurd (h3.symm.trans hO) hO2
            · intro _
              exact ⟨ins2, nm, hok, rfl, hlook, happ⟩
          · constructor
            · refine ⟨fun _ => Or.inr (Or.inr (Or.inr ⟨nm, old, rfl, hL, hO⟩)),
                fun _ => ⟨"old and new metric meta differ", ?_⟩⟩
              simp [updateMetric, hT, hI, hN, registerMetric, hL, hO]
            · intro hn; exact absurd (Or.inr (Or.inr (Or.inr ⟨nm, old, rfl, hL, hO⟩))) hn
        | none =>
          have hR : registerMetric ins nm mm =
              .ok { ins with metricsInfo := insertA nm mm ins.metricsInfo } := by
            simp [registerMetric, hL]
          obtain ⟨ins2, hok, hlook, happ, _, _⟩ :=
            updateMetric_ok_case ins m mm i val nm hT hI hN hR h1 h2
          constructor
          · constructor
            · rintro ⟨e, he⟩
              rw [hok] at he
              exact Except.noConfusion he
            · rintro (h | h | ⟨e, he⟩ | ⟨nm2, old2, hN2, hL2, hO2⟩)
              · exact absurd h hT
              · exact absurd h hI
              · exact Except.noConfusion he
              · cases hN2
                rw [hL] at hL2
                exact Option.noConfusion hL2
          · intro _
            exact ⟨ins2, nm, hok, rfl, hlook, happ⟩

/-- A fresh one-version insights store with no metrics. -/
def insEmptyOne : Insights :=
  { numVersions := 1
    metricsInfo := []
    nonHistMetricValues := [[]]
    histMetricValues := [[]]
    slos := none
    slosSatisfied := none }

/-- A counter metric meta. -/
def mmCounter : MetricMeta := { description := "d", units := none, type := .counter }

/-- Witness for claim C4 at a concrete input on the fresh store: the
well-formedness hypotheses hold and the update of a/b with a counter
scalar succeeds, registers the meta and appends the value. -/
theorem updateMetric_spec_witness :
    insEmptyOne.nonHistMetricValues.length = insEmptyOne.numVersions ∧
      insEmptyOne.histMetricValues.length = insEmptyOne.numVersions ∧
      ∃ ins2 nm, updateMetric insEmptyOne "a/b" mmCounter 0 (.scalar 3) = .ok ins2 ∧
        NormalizeMetricName "a/b" = .ok nm ∧
        lookupA nm ins2.metricsInfo = some mmCounter ∧
        appendedVal insEmptyOne ins2 nm 0 (.scalar 3) :=
  ⟨rfl, rfl,
    (updateMetric_spec insEmptyOne "a/b" mmCounter 0 (.scalar 3) rfl rfl).2 (by
      rintro (h | h | ⟨e, he⟩ | ⟨nm, old, hnm, hl, _⟩)
      · simp [metricTypeMatch, mmCounter] at h
      · simp [insEmptyOne] at h
      · rw [show NormalizeMetricName "a/b" = .ok "a/b" from rfl] at he
        exact Except.noConfusion he
      · simp [insEmptyOne, lookupA] at hl)⟩

/-- Claim C5: after a successful counter or gauge updateMetric on a
well-formed store, resolving any two-segment name that normalizes to
the same canonical name returns the value just appended, the last
observation. -/
theorem scalar_roundtrip (ins ins2 : Insights) (m m2 nm : String) (mm : MetricMeta) (i : ℕ) (v : ℚ)
    (hty : mm.type = .counter ∨ mm.type = .gauge)
    (hupd : updateMetric ins m mm i (.scalar v) = .ok ins2)
    (hN : NormalizeMetricName m = .ok nm)
    (hN2 : NormalizeMetricName m2 = .ok nm)
    (hsplit : (splitSlash m2.data).length = 2)
    (h1 : ins.nonHistMetricValues.length = ins.numVersions)
    (h2 : ins.histMetricValues.length = ins.numVersions) :
    ScalarMetricValue ins2 i m2 = .ok (some v) := by
  have hT : ¬ metricTypeMatch mm.type (.scalar v) = false := by
    intro h
    simp [updateMetric, h] at hupd
  have hI : ¬ ins.numVersions ≤ i := by
    intro h
    simp [updateMetric, hT, h] at hupd
  have hR : registerMetric ins nm mm = .ok { ins with metricsInfo := insertA nm mm ins.metricsInfo } := by
    match hL : lookupA nm ins.metricsInfo with
    | some old =>
      by_cases hO : old = mm
      · simp [registerMetric, hL, hO]
      · exfalso
        simp [updateMetric, hT, hI, hN, registerMetric, hL, hO] at hupd
    | none => simp [registerMetric, hL]
  obtain ⟨ins2b, hok, hlook, happ, hlen1, hlen2⟩ :=
    updateMetric_ok_case ins m mm i (.scalar v) nm hT hI hN hR h1 h2
  rw [hupd] at hok
  injection hok with heq
  subst heq
  obtain ⟨x, y, hxy⟩ := List.length_eq_two.mp hsplit
  unfold ScalarMetricValue
  rw [hxy]
  simp only [hN2]
  unfold getCounterOrGaugeMetricFromValuesMap
  simp only [hlook]
  have hcond : ¬ (mm.type ≠ MetricType.counter ∧ mm.type ≠ MetricType.gauge) := by
    rcases hty with h | h <;> simp [h]
  rw [if_neg hcond]
  have hlen : ¬ ins2.nonHistMetricValues.length ≤ i := by omega
  rw [if_neg hlen]
  have hval : lookupA nm (ins2.nonHistMetricValues.getD i []) =
      some (lookupAD nm (ins.nonHistMetricValues.getD i []) [] ++ [v]) := by
    have happx : lookupAD nm (ins2.nonHistMetricValues.getD i []) [] =
        lookupAD nm (ins.nonHistMetricValues.getD i []) [] ++ [v] := happ
    match hv : lookupA nm (ins2.nonHistMetricValues.getD i []) with
    | some vals =>
      unfold lookupAD at happx
      rw [hv] at happx
      simp at happx
      rw [happx]
      simp [lookupAD, List.getD]
    | none =>
      unfold lookupAD at happx
      rw [hv] at happx
      simp at happx
  rw [hval]
  simp

/-- A gauge metric meta. -/
def mmGauge : MetricMeta := { description := "g", units := none, type := .gauge }

/-- The store insEmptyOne after registering the normalized built-in
percentile gauge http/latency-p95 with the single observation 12.5. -/
def insAfter : Insights :=
  { numVersions := 1
    metricsInfo := [("http/latency-p95", mmGauge)]
    nonHistMetricValues := [[("http/latency-p95", [25/2])]]
    histMetricValues := [[]]
    slos := none
    slosSatisfied := none }

/-- Normalizing the percentile name with trailing zeros drops them. -/
theorem norm_http95_long : NormalizeMetricName "http/latency-p95.00" = .ok "http/latency-p95" := by
  have hpf : parseFloatChars ['9','5','.','0','0'] = some (95 : ℚ) := by
    rw [show parseFloatChars ['9','5','.','0','0'] = parseUnsignedChars ['9','5','.','0','0'] from rfl]
    rw [show parseUnsignedChars ['9','5','.','0','0'] = some (((9500 : ℕ) : ℚ) / ((100 : ℕ) : ℚ)) from rfl]
    norm_num
  have hfmt : formatFloatChars (95 : ℚ) = ['9','5'] := by
    unfold formatFloatChars
    rw [if_neg (by norm_num)]
    rfl
  unfold NormalizeMetricName normalizeL
  rw [if_pos (by decide : preHTTPL.isPrefixOf "http/latency-p95.00".data = true)]
  rw [show "http/latency-p95.00".data.drop preHTTPL.length = ['9','5','.','0','0'] from rfl]
  rw [hpf]
  simp only [hfmt]
  rfl

/-- The already-normalized percentile name is reproduced. -/
theorem norm_http95_short : NormalizeMetricName "http/latency-p95" = .ok "http/latency-p95" := by
  have hpf : parseFloatChars ['9','5'] = some (95 : ℚ) := by
    rw [show parseFloatChars ['9','5'] = some ((95 : ℕ) : ℚ) from rfl]
    norm_num
  have hfmt : formatFloatChars (95 : ℚ) = ['9','5'] := by
    unfold formatFloatChars
    rw [if_neg (by norm_num)]
    rfl
  unfold NormalizeMetricName normalizeL
  rw [if_pos (by decide : preHTTPL.isPrefixOf "http/latency-p95".data = true)]
  rw [show "http/latency-p95".data.drop preHTTPL.length = ['9','5'] from rfl]
  rw [hpf]
  simp only [hfmt]
  rfl

/-- Updating the percentile gauge on the fresh store produces insAfter. -/
theorem upd_gauge_concrete :
    updateMetric insEmptyOne "http/latency-p95.00" mmGauge 0 (.scalar (25/2 : ℚ)) = .ok insAfter := by
  unfold updateMetric
  rw [if_neg (by decide : ¬ metricTypeMatch mmGauge.type (.scalar (25/2 : ℚ)) = false)]
  rw [if_neg (by decide : ¬ insEmptyOne.numVersions ≤ 0)]
  rw [norm_http95_long]
  simp +decide [registerMetric, lookupA, insertA, lookupAD, insEmptyOne, insAfter, mmGauge]

/-- Witness for claim C5 at the spec example: updateMetric of
http/latency-p95.00 with gauge value 12.5 followed by
ScalarMetricValue of http/latency-p95 returns 12.5. -/
theorem scalar_roundtrip_witness :
    (mmGauge.type = .counter ∨ mmGauge.type = .gauge) ∧
      updateMetric insEmptyOne "http/latency-p95.00" mmGauge 0 (.scalar (25/2 : ℚ)) = .ok insAfter ∧
      NormalizeMetricName "http/latency-p95.00" = .ok "http/latency-p95" ∧
      NormalizeMetricName "http/latency-p95" = .ok "http/latency-p95" ∧
      (splitSlash "http/latency-p95".data).length = 2 ∧
      insEmptyOne.nonHistMetricValues.length = insEmptyOne.numVersions ∧
      insEmptyOne.histMetricValues.length = insEmptyOne.numVersions ∧
      ScalarMetricValue insAfter 0 "http/latency-p95" = .ok (some (25/2 : ℚ)) :=
  ⟨Or.inr rfl, upd_gauge_concrete, norm_http95_long, norm_http95_short, by decide, rfl, rfl,
    scalar_roundtrip insEmptyOne insAfter "http/latency-p95.00" "http/latency-p95" "http/latency-p95"
      mmGauge 0 (25/2) (Or.inr rfl) upd_gauge_concrete norm_http95_long norm_http95_short
      (by decide) rfl rfl⟩

end Iter8


namespace Iter8

theorem digitChar_isDigit (d : ℕ) (h : d < 10) : (digitChar d).isDigit = true := by
  interval_cases d <;> decide

theorem dVal_digitChar (d : ℕ) (h : d < 10) : dVal (digitChar d) = d := by
  interval_cases d <;> decide

theorem digitVal_isDigit (c : Char) (h : c.isDigit = true) : digitVal c = some (dVal c) := by
  simp [digitVal, dVal, h]

theorem foldl_dVal_acc (l : List Char) (acc : ℕ) :
    l.foldl (fun a c => 10 * a + dVal c) acc = acc * 10 ^ l.length + valN l := by
  induction l generalizing acc with
  | nil => simp [valN]
  | cons c t ih =>
    show List.foldl _ (10 * acc + dVal c) t = _
    rw [ih (10 * acc + dVal c)]
    have hv : valN (c :: t) = dVal c * 10 ^ t.length + valN t := by
      show List.foldl _ (10 * 0 + dVal c) t = _
      rw [ih (10 * 0 + dVal c)]
      ring
    rw [hv]
    simp [List.length_cons, pow_succ]
    ring

theorem valN_append (x y : List Char) :
    valN (x ++ y) = valN x * 10 ^ y.length + valN y := by
  unfold valN
  rw [List.foldl_append]
  rw [foldl_dVal_acc]
  rfl

theorem valN_replicate_zero (k : ℕ) : valN (List.replicate k '0') = 0 := by
  induction k with
  | zero => rfl
  | succ n ih =>
    rw [List.replicate_succ]
    show List.foldl (fun a c => 10 * a + dVal c) 0 (List.replicate n '0') = 0
    exact ih

theorem valN_pad (k : ℕ) (l : List Char) :
    valN (List.replicate k '0' ++ l) = valN l := by
  rw [valN_append, valN_replicate_zero]
  simp

theorem natDigitsRevAux_mono (f1 : ℕ) : ∀ f2 n, n ≤ f1 → n ≤ f2 →
    natDigitsRevAux f1 n = natDigitsRevAux f2 n := by
  induction f1 with
  | zero =>
    intro f2 n h1 _
    have hz : n = 0 := by omega
    subst hz
    cases f2 <;> simp [natDigitsRevAux]
  | succ m ih =>
    intro f2 n h1 h2
    cases f2 with
    | zero =>
      have hz : n = 0 := by omega
      subst hz
      simp [natDigitsRevAux]
    | succ m2 =>
      by_cases hz : n = 0
      · subst hz
        simp [natDigitsRevAux]
      · have hd : n / 10 < n := Nat.div_lt_self (by omega) (by norm_num)
        show (if n = 0 then [] else n % 10 :: natDigitsRevAux m (n / 10)) =
          (if n = 0 then [] else n % 10 :: natDigitsRevAux m2 (n / 10))
        rw [if_neg hz, if_neg hz]
        rw [ih m2 (n / 10) (by omega) (by omega)]

theorem natDigitsRev_unfold (n : ℕ) :
    natDigitsRev n = if n = 0 then [] else n % 10 :: natDigitsRev (n / 10) := by
  by_cases hz : n = 0
  · subst hz
    rfl
  · rw [if_neg hz]
    unfold natDigitsRev
    match n, hz with
    | m + 1, _ =>
      show (if m + 1 = 0 then [] else (m + 1) % 10 :: natDigitsRevAux m ((m + 1) / 10)) = _
      rw [if_neg (by omega)]
      have hd : (m + 1) / 10 < m + 1 := Nat.div_lt_self (by omega) (by norm_num)
      rw [natDigitsRevAux_mono m ((m + 1) / 10) ((m + 1) / 10) (by omega) (by omega)]

theorem mem_natDigitsRev_lt (n : ℕ) : ∀ d ∈ natDigitsRev n, d < 10 := by
  induction n using Nat.strong_induction_on with
  | _ n ih =>
    rw [natDigitsRev_unfold]
    by_cases hz : n = 0
    · simp [hz]
    · rw [if_neg hz]
      intro d hd
      rcases List.mem_cons.mp hd with h | h
      · subst h
        exact Nat.mod_lt n (by norm_num)
      · exact ih (n / 10) (Nat.div_lt_self (by omega) (by norm_num)) d h

def ofD : List ℕ → ℕ
  | [] => 0
  | d :: t => d + 10 * ofD t

theorem ofD_natDigitsRev (n : ℕ) : ofD (natDigitsRev n) = n := by
  induction n using Nat.strong_induction_on with
  | _ n ih =>
    rw [natDigitsRev_unfold]
    by_cases hz : n = 0
    · simp [hz, ofD]
    · rw [if_neg hz]
      show n % 10 + 10 * ofD (natDigitsRev (n / 10)) = n
      rw [ih (n / 10) (Nat.div_lt_self (by omega) (by norm_num))]
      omega

theorem valN_rev_map (ds : List ℕ) (h : ∀ d ∈ ds, d < 10) :
    valN ((ds.map digitChar).reverse) = ofD ds := by
  induction ds with
  | nil => rfl
  | cons d t ih =>
    rw [List.map_cons, List.reverse_cons]
    rw [valN_append]
    have h1 : valN [digitChar d] = d := by
      show 10 * 0 + dVal (digitChar d) = d
      rw [dVal_digitChar d (h d (by simp))]
      omega
    rw [h1, ih (fun d2 hd2 => h d2 (by simp [hd2]))]
    show ofD t * 10 ^ 1 + d = d + 10 * ofD t
    ring

theorem valN_natToChars (n : ℕ) : valN (natToChars n) = n := by
  unfold natToChars
  by_cases hz : n = 0
  · subst hz
    decide
  · rw [if_neg hz]
    rw [valN_rev_map (natDigitsRev n) (mem_natDigitsRev_lt n)]
    exact ofD_natDigitsRev n

theorem natToChars_digits (n : ℕ) : ∀ c ∈ natToChars n, c.isDigit = true := by
  unfold natToChars
  by_cases hz : n = 0
  · subst hz
    simp
  · rw [if_neg hz]
    intro c hc
    rw [List.mem_reverse, List.mem_map] at hc
    obtain ⟨d, hd, hdc⟩ := hc
    subst hdc
    exact digitChar_isDigit d (mem_natDigitsRev_lt n d hd)

theorem natToChars_ne_nil (n : ℕ) : natToChars n ≠ [] := by
  unfold natToChars
  by_cases hz : n = 0
  · simp [hz]
  · rw [if_neg hz]
    intro hcon
    have h0 : natDigitsRev n ≠ [] := by
      rw [natDigitsRev_unfold, if_neg hz]
      simp
    simp at hcon
    exact h0 hcon

end Iter8

namespace Iter8

theorem digitsToNatAux_digits (l : List Char) : ∀ acc, (∀ c ∈ l, c.isDigit = true) →
    digitsToNatAux acc l = some (l.foldl (fun a c => 10 * a + dVal c) acc) := by
  induction l with
  | nil => intro acc _; rfl
  | cons c t ih =>
    intro acc h
    rw [digitsToNatAux]
    rw [digitVal_isDigit c (h c (by simp))]
    exact ih (10 * acc + dVal c) (fun c2 hc2 => h c2 (by simp [hc2]))

theorem charsToNat_digits (l : List Char) (hne : l ≠ []) (h : ∀ c ∈ l, c.isDigit = true) :
    charsToNat l = some (valN l) := by
  unfold charsToNat
  rw [if_neg (by simpa using hne)]
  exact digitsToNatAux_digits l 0 h

theorem takeWhile_append_stop {p : Char → Bool} (a : List Char) (x : Char) (b : List Char)
    (ha : ∀ c ∈ a, p c = true) (hx : p x = false) :
    (a ++ x :: b).takeWhile p = a ∧ (a ++ x :: b).dropWhile p = x :: b := by
  induction a with
  | nil => simp [List.takeWhile_cons, List.dropWhile_cons, hx]
  | cons c t ih =>
    have hc : p c = true := ha c (by simp)
    have iht := ih (fun c2 hc2 => ha c2 (by simp [hc2]))
    constructor
    · show List.takeWhile p (c :: (t ++ x :: b)) = c :: t
      rw [List.takeWhile_cons, hc]
      simp [iht.1]
    · show List.dropWhile p (c :: (t ++ x :: b)) = x :: b
      rw [List.dropWhile_cons, hc]
      simp [iht.2]

theorem takeWhile_all {p : Char → Bool} (l : List Char) (h : ∀ c ∈ l, p c = true) :
    l.takeWhile p = l ∧ l.dropWhile p = [] := by
  induction l with
  | nil => simp
  | cons c t ih =>
    have hc : p c = true := h c (by simp)
    have iht := ih (fun c2 hc2 => h c2 (by simp [hc2]))
    rw [List.takeWhile_cons, List.dropWhile_cons, hc]
    simp [iht.1, iht.2]

theorem multFAux_mono (p : ℕ) (f1 : ℕ) : ∀ f2 n, n ≤ f1 → n ≤ f2 →
    multFAux p f1 n = multFAux p f2 n := by
  induction f1 with
  | zero =>
    intro f2 n h1 _
    have hz : n = 0 := by omega
    subst hz
    cases f2 <;> simp [multFAux]
  | succ m ih =>
    intro f2 n h1 h2
    cases f2 with
    | zero =>
      have hz : n = 0 := by omega
      subst hz
      simp [multFAux]
    | succ m2 =>
      show (if 2 ≤ p ∧ n ≠ 0 ∧ n % p = 0 then multFAux p m (n / p) + 1 else 0) =
        (if 2 ≤ p ∧ n ≠ 0 ∧ n % p = 0 then multFAux p m2 (n / p) + 1 else 0)
      by_cases hc : 2 ≤ p ∧ n ≠ 0 ∧ n % p = 0
      · rw [if_pos hc, if_pos hc]
        have hd : n / p < n := Nat.div_lt_self (by omega) (by omega)
        rw [ih m2 (n / p) (by omega) (by omega)]
      · rw [if_neg hc, if_neg hc]

theorem multF_unfold (p n : ℕ) :
    multF p n = if 2 ≤ p ∧ n ≠ 0 ∧ n % p = 0 then multF p (n / p) + 1 else 0 := by
  by_cases hc : 2 ≤ p ∧ n ≠ 0 ∧ n % p = 0
  · rw [if_pos hc]
    unfold multF
    match n, hc with
    | m + 1, hc =>
      show (if 2 ≤ p ∧ m + 1 ≠ 0 ∧ (m + 1) % p = 0 then multFAux p m ((m + 1) / p) + 1 else 0) = _
      rw [if_pos hc]
      have hd : (m + 1) / p < m + 1 := Nat.div_lt_self (by omega) (by omega)
      rw [multFAux_mono p m ((m + 1) / p) ((m + 1) / p) (by omega) (by omega)]
  · rw [if_neg hc]
    unfold multF
    match n with
    | 0 => rfl
    | m + 1 =>
      show (if 2 ≤ p ∧ m + 1 ≠ 0 ∧ (m + 1) % p = 0 then multFAux p m ((m + 1) / p) + 1 else 0) = 0
      rw [if_neg hc]

theorem multF_pow_mul (p : ℕ) (hp : 2 ≤ p) (a m : ℕ) (hm : ¬ p ∣ m) (hm0 : m ≠ 0) :
    multF p (p ^ a * m) = a := by
  induction a with
  | zero =>
    rw [multF_unfold]
    rw [if_neg]
    intro ⟨_, _, hmod⟩
    exact hm (Nat.dvd_of_mod_eq_zero (by simpa using hmod))
  | succ k ih =>
    rw [multF_unfold]
    have hpe : p ^ (k + 1) * m = p * (p ^ k * m) := by ring
    have hpos : p ^ (k + 1) * m ≠ 0 := by positivity
    have hdvd : (p ^ (k + 1) * m) % p = 0 := by
      rw [hpe]
      exact Nat.mul_mod_right p (p ^ k * m)
    rw [if_pos ⟨hp, hpos, hdvd⟩]
    have hdiv : (p ^ (k + 1) * m) / p = p ^ k * m := by
      rw [hpe]
      exact Nat.mul_div_cancel_left _ (by omega)
    rw [hdiv, ih]

end Iter8

namespace Iter8

theorem dvd_two_five (d : ℕ) : ∀ A B : ℕ, d ∣ 2 ^ A * 5 ^ B →
    ∃ a b, a ≤ A ∧ b ≤ B ∧ d = 2 ^ a * 5 ^ b := by
  induction d using Nat.strong_induction_on with
  | _ d ih =>
    intro A B hdvd
    match d with
    | 0 =>
      exfalso
      have h0 : (2 : ℕ) ^ A * 5 ^ B = 0 := Nat.eq_zero_of_zero_dvd hdvd
      have : (0 : ℕ) < 2 ^ A * 5 ^ B := by positivity
      omega
    | 1 => exact ⟨0, 0, by omega, by omega, rfl⟩
    | e + 2 =>
      set dd := e + 2 with hdd
      have hne : dd ≠ 1 := by omega
      have hp : dd.minFac.Prime := Nat.minFac_prime hne
      have hpd : dd.minFac ∣ dd := Nat.minFac_dvd dd
      have hp25 : dd.minFac ∣ 2 ^ A * 5 ^ B := dvd_trans hpd hdvd
      have hcase : dd.minFac = 2 ∨ dd.minFac = 5 := by
        rcases (Nat.Prime.dvd_mul hp).mp hp25 with h | h
        · left
          have h2 : dd.minFac ∣ 2 := Nat.Prime.dvd_of_dvd_pow hp h
          exact (Nat.prime_dvd_prime_iff_eq hp Nat.prime_two).mp h2
        · right
          have h5 : dd.minFac ∣ 5 := Nat.Prime.dvd_of_dvd_pow hp h
          exact (Nat.prime_dvd_prime_iff_eq hp (by norm_num)).mp h5
      rcases hcase with h2 | h5
      · -- least factor 2
        rw [h2] at hpd
        obtain ⟨q, hq⟩ := hpd
        have hq0 : q ≠ 0 := by omega
        have hqlt : q < dd := by omega
        match A, hdvd with
        | 0, hdvd =>
          exfalso
          have h2d : (2 : ℕ) ∣ 5 ^ B := by
            have : (2 : ℕ) ∣ 2 ^ 0 * 5 ^ B := dvd_trans ⟨q, hq⟩ hdvd
            simpa using this
          have : (2 : ℕ) ∣ 5 := Nat.Prime.dvd_of_dvd_pow Nat.prime_two h2d
          norm_num at this
        | A + 1, hdvd =>
          have hq_dvd : q ∣ 2 ^ A * 5 ^ B := by
            have hmul : 2 * q ∣ 2 * (2 ^ A * 5 ^ B) := by
              rw [← hq]
              have : 2 * (2 ^ A * 5 ^ B) = 2 ^ (A + 1) * 5 ^ B := by ring
              rw [this]
              exact hdvd
            exact (mul_dvd_mul_iff_left (by norm_num : (2 : ℕ) ≠ 0)).mp hmul
          obtain ⟨a, b, ha, hb, heq⟩ := ih q hqlt A B hq_dvd
          exact ⟨a + 1, b, by omega, hb, by rw [hq, heq]; ring⟩
      · -- least factor 5
        rw [h5] at hpd
        obtain ⟨q, hq⟩ := hpd
        have hq0 : q ≠ 0 := by omega
        have hqlt : q < dd := by omega
        match B, hdvd with
        | 0, hdvd =>
          exfalso
          have h5d : (5 : ℕ) ∣ 2 ^ A := by
            have : (5 : ℕ) ∣ 2 ^ A * 5 ^ 0 := dvd_trans ⟨q, hq⟩ hdvd
            simpa using this
          have : (5 : ℕ) ∣ 2 := Nat.Prime.dvd_of_dvd_pow (by norm_num) h5d
          norm_num at this
        | B + 1, hdvd =>
          have hq_dvd : q ∣ 2 ^ A * 5 ^ B := by
            have hmul : 5 * q ∣ 5 * (2 ^ A * 5 ^ B) := by
              rw [← hq]
              have : 5 * (2 ^ A * 5 ^ B) = 2 ^ A * 5 ^ (B + 1) := by ring
              rw [this]
              exact hdvd
            exact (mul_dvd_mul_iff_left (by norm_num : (5 : ℕ) ≠ 0)).mp hmul
          obtain ⟨a, b, ha, hb, heq⟩ := ih q hqlt A B hq_dvd
          exact ⟨a, b + 1, ha, by omega, by rw [hq, heq]; ring⟩

theorem pow_form_multF (d : ℕ) (A B : ℕ) (h : d ∣ 2 ^ A * 5 ^ B) :
    d = 2 ^ multF 2 d * 5 ^ multF 5 d := by
  obtain ⟨a, b, _, _, heq⟩ := dvd_two_five d A B h
  have h2 : multF 2 d = a := by
    rw [heq]
    apply multF_pow_mul 2 (by norm_num) a (5 ^ b)
    · intro hcon
      have : (2 : ℕ) ∣ 5 := Nat.Prime.dvd_of_dvd_pow Nat.prime_two hcon
      norm_num at this
    · positivity
  have h5 : multF 5 d = b := by
    rw [heq, mul_comm]
    apply multF_pow_mul 5 (by norm_num) b (2 ^ a)
    · intro hcon
      have : (5 : ℕ) ∣ 2 := Nat.Prime.dvd_of_dvd_pow (by norm_num) hcon
      norm_num at this
    · positivity
  rw [h2, h5]
  exact heq

theorem den_dvd_ten_pow (d : ℕ) (A B : ℕ) (h : d ∣ 2 ^ A * 5 ^ B) :
    d ∣ 10 ^ max (multF 2 d) (multF 5 d) := by
  set k := max (multF 2 d) (multF 5 d) with hk
  have hform := pow_form_multF d A B h
  have h10 : (10 : ℕ) ^ k = 2 ^ k * 5 ^ k := by
    rw [show (10 : ℕ) = 2 * 5 by norm_num, mul_pow]
  rw [h10, hform]
  exact mul_dvd_mul (pow_dvd_pow 2 (by omega)) (pow_dvd_pow 5 (by omega))

end Iter8

namespace Iter8

theorem scaled_int (q : ℚ) (h0 : 0 ≤ q) (k : ℕ) (hdvd : q.den ∣ 10 ^ k) :
    ((q.num.toNat * (10 ^ k / q.den) : ℕ) : ℚ) = q * 10 ^ k := by
  have hden0 : ((q.den : ℚ)) ≠ 0 := by
    exact_mod_cast q.den_nz
  push_cast [Nat.cast_div hdvd hden0]
  have hnum : ((q.num.toNat : ℕ) : ℚ) = (q.num : ℚ) := by
    rw [← Int.cast_natCast]
    exact_mod_cast congrArg (fun z : ℤ => (z : ℚ)) (Int.toNat_of_nonneg (Rat.num_nonneg.mpr h0))
  rw [hnum]
  have harr : (q.num : ℚ) * ((10 : ℚ) ^ k / (q.den : ℚ)) = ((q.num : ℚ) / (q.den : ℚ)) * 10 ^ k := by
    ring
  rw [harr, Rat.num_div_den]

end Iter8

namespace Iter8

theorem parse_of_all_digits (l : List Char) (hne : l ≠ []) (h : ∀ c ∈ l, c.isDigit = true) :
    parseUnsignedChars l = some ((valN l : ℕ) : ℚ) := by
  unfold parseUnsignedChars
  obtain ⟨htake, hdrop⟩ := takeWhile_all l h
  rw [htake, hdrop]
  rw [if_neg (by simpa using hne)]
  rw [charsToNat_digits l hne h]

theorem parse_int_frac (A2 B2 : List Char) (hneA : A2 ≠ []) (hneB : B2 ≠ [])
    (hdA : ∀ c ∈ A2, c.isDigit = true) (hdB : ∀ c ∈ B2, c.isDigit = true) :
    parseUnsignedChars (A2 ++ '.' :: B2) =
      some (((valN A2 * 10 ^ B2.length + valN B2 : ℕ) : ℚ) / ((10 ^ B2.length : ℕ) : ℚ)) := by
  obtain ⟨htake, hdrop⟩ := takeWhile_append_stop A2 '.' B2 hdA (by decide)
  unfold parseUnsignedChars
  rw [htake, hdrop]
  simp [hneA, hneB, List.all_eq_true.mpr hdB, charsToNat_digits _ hneA hdA,
    charsToNat_digits _ hneB hdB]

theorem parse_format_unsigned (q : ℚ) (h0 : 0 ≤ q) (A B : ℕ) (hd : q.den ∣ 2 ^ A * 5 ^ B) :
    parseUnsignedChars (formatUnsignedChars q) = some q := by
  have hdvd : q.den ∣ 10 ^ max (multF 2 q.den) (multF 5 q.den) := den_dvd_ten_pow q.den A B hd
  set k := max (multF 2 q.den) (multF 5 q.den) with hkdef
  set n := q.num.toNat * (10 ^ k / q.den) with hndef
  have hE1 : ((n : ℕ) : ℚ) = q * 10 ^ k := scaled_int q h0 k hdvd
  have hfmt : formatUnsignedChars q =
      (if k = 0 then natToChars n
       else
        (List.replicate (k + 1 - (natToChars n).length) '0' ++ natToChars n).take
            ((List.replicate (k + 1 - (natToChars n).length) '0' ++ natToChars n).length - k) ++
          '.' :: (List.replicate (k + 1 - (natToChars n).length) '0' ++ natToChars n).drop
            ((List.replicate (k + 1 - (natToChars n).length) '0' ++ natToChars n).length - k)) := by
    rw [formatUnsignedChars]
  by_cases hk : k = 0
  · rw [hfmt, if_pos hk]
    rw [parse_of_all_digits (natToChars n) (natToChars_ne_nil n) (natToChars_digits n)]
    rw [valN_natToChars]
    rw [hE1, hk]
    norm_num
  · rw [hfmt, if_neg hk]
    set ds := natToChars n with hdsdef
    set dsP := List.replicate (k + 1 - ds.length) '0' ++ ds with hdsPdef
    have hdigP : ∀ c ∈ dsP, c.isDigit = true := by
      intro c hc
      rcases List.mem_append.mp hc with h | h
      · rw [List.eq_of_mem_replicate h]
        decide
      · exact natToChars_digits n c h
    have hlenP : k + 1 ≤ dsP.length := by
      rw [hdsPdef, List.length_append, List.length_replicate]
      omega
    have hlenA : (dsP.take (dsP.length - k)).length = dsP.length - k := by
      rw [List.length_take]
      omega
    have hlenB : (dsP.drop (dsP.length - k)).length = k := by
      rw [List.length_drop]
      omega
    have hdigA : ∀ c ∈ dsP.take (dsP.length - k), c.isDigit = true :=
      fun c hc => hdigP c (List.take_subset _ _ hc)
    have hdigB : ∀ c ∈ dsP.drop (dsP.length - k), c.isDigit = true :=
      fun c hc => hdigP c (List.drop_subset _ _ hc)
    have hneA : dsP.take (dsP.length - k) ≠ [] := by
      intro hcon
      have hcl := congrArg List.length hcon
      rw [hlenA] at hcl
      simp at hcl
      omega
    have hneB : dsP.drop (dsP.length - k) ≠ [] := by
      intro hcon
      have hcl := congrArg List.length hcon
      rw [hlenB] at hcl
      simp at hcl
      omega
    rw [parse_int_frac _ _ hneA hneB hdigA hdigB]
    have hsplitv : valN (dsP.take (dsP.length - k)) * 10 ^ (dsP.drop (dsP.length - k)).length +
        valN (dsP.drop (dsP.length - k)) = n := by
      have happ := valN_append (dsP.take (dsP.length - k)) (dsP.drop (dsP.length - k))
      rw [List.take_append_drop] at happ
      have hvdsP : valN dsP = valN ds := valN_pad _ ds
      rw [hvdsP, hdsdef, valN_natToChars] at happ
      omega
    rw [hsplitv, hlenB, hE1]
    have h10 : ((10 ^ k : ℕ) : ℚ) ≠ 0 := by positivity
    congr 1
    push_cast
    field_simp

theorem parseUnsigned_props (s : List Char) (q : ℚ) (h : parseUnsignedChars s = some q) :
    0 ≤ q ∧ ∃ A B : ℕ, q.den ∣ 2 ^ A * 5 ^ B := by
  unfold parseUnsignedChars at h
  by_cases he : (s.takeWhile Char.isDigit).isEmpty
  · rw [if_pos he] at h
    cases h
  · rw [if_neg he] at h
    match hr : s.dropWhile Char.isDigit with
    | [] =>
      rw [hr] at h
      simp only [] at h
      match h1 : charsToNat (s.takeWhile Char.isDigit) with
      | some n =>
        rw [h1] at h
        injection h with hq
        subst hq
        refine ⟨by positivity, 0, 0, by simp⟩
      | none =>
        rw [h1] at h
        cases h
    | c :: fp =>
      rw [hr] at h
      simp only [] at h
      by_cases hc : c = '.'
      · rw [if_pos hc] at h
        by_cases hfe : fp.isEmpty
        · rw [if_pos hfe] at h
          cases h
        · rw [if_neg hfe] at h
          by_cases hfd : fp.all Char.isDigit
          · rw [if_pos hfd] at h
            match h1 : charsToNat (s.takeWhile Char.isDigit), h2 : charsToNat fp with
            | some a, some b =>
              rw [h1, h2] at h
              injection h with hq
              subst hq
              refine ⟨by positivity, fp.length, fp.length, ?_⟩
              have hval : (((a * 10 ^ fp.length + b : ℕ) : ℚ) / ((10 ^ fp.length : ℕ) : ℚ)) =
                  Rat.divInt ((a * 10 ^ fp.length + b : ℕ) : ℤ) ((10 ^ fp.length : ℕ) : ℤ) := by
                rw [Rat.divInt_eq_div]
                push_cast
                ring
              rw [hval]
              have hdvd := Rat.den_dvd ((a * 10 ^ fp.length + b : ℕ) : ℤ) ((10 ^ fp.length : ℕ) : ℤ)
              have hdvd2 : (Rat.divInt ((a * 10 ^ fp.length + b : ℕ) : ℤ)
                  ((10 ^ fp.length : ℕ) : ℤ)).den ∣ 10 ^ fp.length :=
                Int.natCast_dvd_natCast.mp (by exact_mod_cast hdvd)
              calc (Rat.divInt ((a * 10 ^ fp.length + b : ℕ) : ℤ) ((10 ^ fp.length : ℕ) : ℤ)).den
                  ∣ 10 ^ fp.length := hdvd2
                _ ∣ 2 ^ fp.length * 5 ^ fp.length := by
                    rw [show (10 : ℕ) = 2 * 5 by norm_num, mul_pow]
            | some _, none =>
              rw [h1, h2] at h
              cases h
            | none, some _ =>
              rw [h1, h2] at h
              cases h
            | none, none =>
              rw [h1, h2] at h
              cases h
          · rw [if_neg hfd] at h
            cases h
      · rw [if_neg hc] at h
        cases h

theorem parseFloat_den (s : List Char) (q : ℚ) (h : parseFloatChars s = some q) :
    ∃ A B : ℕ, q.den ∣ 2 ^ A * 5 ^ B := by
  unfold parseFloatChars at h
  match s with
  | [] => cases h
  | c :: rest =>
    simp only [] at h
    by_cases h1 : c = '-'
    · rw [if_pos h1] at h
      obtain ⟨u, hu, hq⟩ := Option.map_eq_some'.mp h
      subst hq
      obtain ⟨_, A, B, hd⟩ := parseUnsigned_props rest u hu
      exact ⟨A, B, by rwa [Rat.den_neg_eq_den]⟩
    · rw [if_neg h1] at h
      by_cases h2 : c = '+'
      · rw [if_pos h2] at h
        obtain ⟨_, A, B, hd⟩ := parseUnsigned_props rest q h
        exact ⟨A, B, hd⟩
      · rw [if_neg h2] at h
        obtain ⟨_, A, B, hd⟩ := parseUnsigned_props (c :: rest) q h
        exact ⟨A, B, hd⟩

theorem format_head_digit (q : ℚ) :
    ∃ c t, formatUnsignedChars q = c :: t ∧ c.isDigit = true := by
  rw [formatUnsignedChars]
  set k := max (multF 2 q.den) (multF 5 q.den) with hkdef
  set n := q.num.toNat * (10 ^ k / q.den) with hndef
  by_cases hk : k = 0
  · rw [if_pos hk]
    obtain ⟨c, t, hct⟩ := List.exists_cons_of_ne_nil (natToChars_ne_nil n)
    exact ⟨c, t, hct, natToChars_digits n c (by rw [hct]; simp)⟩
  · rw [if_neg hk]
    set ds := natToChars n with hdsdef
    set dsP := List.replicate (k + 1 - ds.length) '0' ++ ds with hdsPdef
    have hlenP : k + 1 ≤ dsP.length := by
      rw [hdsPdef, List.length_append, List.length_replicate]
      omega
    have hlenA : (dsP.take (dsP.length - k)).length = dsP.length - k := by
      rw [List.length_take]
      omega
    have hneA : dsP.take (dsP.length - k) ≠ [] := by
      intro hcon
      have hcl := congrArg List.length hcon
      rw [hlenA] at hcl
      simp at hcl
      omega
    obtain ⟨c, t, hct⟩ := List.exists_cons_of_ne_nil hneA
    have hdig : c.isDigit = true := by
      have hmem : c ∈ dsP.take (dsP.length - k) := by rw [hct]; simp
      have hmem2 : c ∈ dsP := List.take_subset _ _ hmem
      rcases List.mem_append.mp hmem2 with h | h
      · rw [List.eq_of_mem_replicate h]
        decide
      · exact natToChars_digits n c h
    exact ⟨c, t ++ '.' :: dsP.drop (dsP.length - k), by
      simp only []
      rw [hct]
      simp only [List.cons_append], hdig⟩

theorem parse_format_float (q : ℚ) (A B : ℕ) (hd : q.den ∣ 2 ^ A * 5 ^ B) :
    parseFloatChars (formatFloatChars q) = some q := by
  by_cases hneg : q < 0
  · unfold formatFloatChars
    rw [if_pos hneg]
    show parseFloatChars ('-' :: formatUnsignedChars (-q)) = some q
    unfold parseFloatChars
    simp only []
    simp only [if_true]
    rw [parse_format_unsigned (-q) (by linarith) A B (by rwa [Rat.den_neg_eq_den])]
    simp
  · unfold formatFloatChars
    rw [if_neg hneg]
    obtain ⟨c, t, hct, hcd⟩ := format_head_digit q
    rw [hct]
    unfold parseFloatChars
    simp only []
    have hc1 : ¬ c = '-' := by
      intro h
      rw [h] at hcd
      simp at hcd
    have hc2 : ¬ c = '+' := by
      intro h
      rw [h] at hcd
      simp at hcd
    rw [if_neg hc1, if_neg hc2]
    rw [← hct]
    exact parse_format_unsigned q (le_of_not_lt hneg) A B hd

theorem isPrefixOf_append_self (l t : List Char) : l.isPrefixOf (l ++ t) = true := by
  induction l with
  | nil => simp [List.isPrefixOf]
  | cons c r ih => simp [List.isPrefixOf, ih]

theorem http_not_pre_grpc (t : List Char) : preHTTPL.isPrefixOf (preGRPCL ++ t) = false := by
  show List.isPrefixOf ('h' :: _) (('g' :: _) ++ t) = false
  rw [List.cons_append]
  show (('h' == 'g') && _) = false
  rw [show (('h' : Char) == 'g') = false from by decide]
  simp

theorem normalizeL_idem (m l : List Char) (h : normalizeL m = .ok l) : normalizeL l = .ok l := by
  unfold normalizeL at h ⊢
  by_cases h1 : preHTTPL.isPrefixOf m = true
  · rw [if_pos h1] at h
    match hp : parseFloatChars (m.drop preHTTPL.length) with
    | none =>
      rw [hp] at h
      cases h
    | some q =>
      rw [hp] at h
      injection h with hl
      subst hl
      obtain ⟨A, B, hd⟩ := parseFloat_den _ q hp
      rw [if_pos (isPrefixOf_append_self preHTTPL (formatFloatChars q))]
      rw [List.drop_left]
      rw [parse_format_float q A B hd]
  · rw [if_neg h1] at h
    by_cases h2 : preGRPCL.isPrefixOf m = true
    · rw [if_pos h2] at h
      match hp : parseFloatChars (m.drop preGRPCL.length) with
      | none =>
        rw [hp] at h
        cases h
      | some q =>
        rw [hp] at h
        injection h with hl
        subst hl
        obtain ⟨A, B, hd⟩ := parseFloat_den _ q hp
        rw [if_neg (by rw [http_not_pre_grpc]; simp)]
        rw [if_pos (isPrefixOf_append_self preGRPCL (formatFloatChars q))]
        rw [List.drop_left]
        rw [parse_format_float q A B hd]
    · rw [if_neg h2] at h
      injection h with hl
      subst hl
      rw [if_neg h1, if_neg h2]

/-- Claim C9: NormalizeMetricName is idempotent; whenever it succeeds,
normalizing its output succeeds and returns the same string, because
the reformatted percentile parses back to the same number and formats
to the same text, and non-percentile names pass through unchanged. -/
theorem normalizeMetricName_idem (m nm : String) (h : NormalizeMetricName m = .ok nm) :
    NormalizeMetricName nm = .ok nm := by
  unfold NormalizeMetricName at h ⊢
  match hl : normalizeL m.data with
  | .error e =>
    rw [hl] at h
    cases h
  | .ok l =>
    rw [hl] at h
    injection h with h2
    subst h2
    rw [show (String.mk l).data = l from rfl]
    rw [normalizeL_idem m.data l hl]

/-- Witness for claim C9 at the concrete percentile name with
trailing zeros. -/
theorem normalize_idem_witness :
    NormalizeMetricName "http/latency-p95.00" = .ok "http/latency-p95" ∧
      NormalizeMetricName "http/latency-p95" = .ok "http/latency-p95" :=
  ⟨norm_http95_long, normalizeMetricName_idem "http/latency-p95.00" "http/latency-p95" norm_http95_long⟩

end Iter8
